import Mathlib

/-!
Verification of the toolchain-discovery and workshop-directory resolution
engine of the workshop repository (src/fs/utils.rs and src/status.rs).

The Rust code is shallowly embedded: pure string processing becomes Lean
functions on lists of characters, the process-probing loops become functions
parameterised by a world function mapping each candidate executable to the
outcome of its version-query invocation, and the filesystem becomes an
explicit rose tree threaded through each operation.
-/

/-- Error type of the embedded operations, mirroring the crate's
typed failure conditions (Error and fs::Error variants used by the core). -/
inductive Err where
  | noPythonExecutable
  | noDockerComposeExecutable
  | workshopDataDirNotFound
  | applicationDirsNotFound
  | ioErr
deriving DecidableEq, Repr

/-- Modelled from the spec: a semantic version, major.minor.patch with an
optional pre-release and build-metadata suffix (the semver crate used by the
source is an external dependency; the spec describes it as
"a semantic version (major.minor.patch, optional pre-release)"). -/
structure Version where
  major : Nat
  minor : Nat
  patch : Nat
  pre : List String
  build : List String
deriving DecidableEq, Repr

/-- Numeric value of a list of decimal digit characters. -/
def digitsToNat (l : List Char) : Nat :=
  l.foldl (fun n c => n * 10 + (c.toNat - 48)) 0

/-- Characters allowed in semver pre-release and build identifiers:
ASCII alphanumerics and hyphen. -/
def isIdentChar (c : Char) : Bool :=
  c.isAlpha || c.isDigit || c == '-'

/-- Parse a semver numeric identifier: nonempty, all digits, and no leading
zero (except the single digit 0 itself). -/
def parseNumericIdent : List Char → Option Nat
  | [] => none
  | ['0'] => some 0
  | '0' :: _ :: _ => none
  | l => if l.all Char.isDigit then some (digitsToNat l) else none

/-- Parse a semver pre-release identifier: nonempty, alphanumeric-or-hyphen
characters, and numeric identifiers must not have leading zeros. -/
def parsePreIdent (l : List Char) : Option String :=
  if l.isEmpty then none
  else if !(l.all isIdentChar) then none
  else if l.all Char.isDigit then (parseNumericIdent l).map (fun _ => String.mk l)
  else some (String.mk l)

/-- Parse a semver build identifier: nonempty, alphanumeric-or-hyphen
characters (leading zeros allowed). -/
def parseBuildIdent (l : List Char) : Option String :=
  if l.isEmpty || !(l.all isIdentChar) then none else some (String.mk l)

/-- Parse every identifier of a dot-separated list, failing if any fails. -/
def parseIdentList (f : List Char → Option String) : List (List Char) → Option (List String)
  | [] => some []
  | x :: xs =>
    match f x, parseIdentList f xs with
    | some s, some rest => some (s :: rest)
    | _, _ => none

/-- Split a character list at every occurrence of a character, keeping empty
segments (the segments between consecutive delimiters). -/
def splitOnChar (c : Char) : List Char → List (List Char)
  | [] => [[]]
  | x :: xs =>
    if x == c then [] :: splitOnChar c xs
    else
      match splitOnChar c xs with
      | [] => [[x]]
      | seg :: rest => (x :: seg) :: rest

/-- Split a character list at the first occurrence of a character: the part
before it, and the part after it when the character occurs at all. -/
def breakAtFirst (c : Char) : List Char → List Char × Option (List Char)
  | [] => ([], none)
  | x :: xs =>
    if x == c then ([], some xs)
    else
      let (a, b) := breakAtFirst c xs
      (x :: a, b)

/-- Modelled from the spec: parsing of a semantic version string (the semver
crate's Version::parse). The core major.minor.patch must be exactly three
numeric identifiers; an optional pre-release follows the first hyphen after
the core and an optional build-metadata part follows the first plus sign. -/
def Version.parseChars (l : List Char) : Option Version :=
  let (beforePlus, buildPart) := breakAtFirst '+' l
  let (core, prePart) := breakAtFirst '-' beforePlus
  match splitOnChar '.' core with
  | [ma, mi, pa] =>
    match parseNumericIdent ma, parseNumericIdent mi, parseNumericIdent pa with
    | some major, some minor, some patch =>
      let preIds := match prePart with
        | none => some []
        | some p => parseIdentList parsePreIdent (splitOnChar '.' p)
      let buildIds := match buildPart with
        | none => some []
        | some b => parseIdentList parseBuildIdent (splitOnChar '.' b)
      match preIds, buildIds with
      | some pre, some build => some ⟨major, minor, patch, pre, build⟩
      | _, _ => none
    | _, _, _ => none
  | _ => none

/-- Version::parse on a string. -/
def Version.parse (s : String) : Option Version :=
  Version.parseChars s.toList

/-- Lexicographic strict order on character lists by code point. -/
def charListLt : List Char → List Char → Bool
  | [], [] => false
  | [], _ :: _ => true
  | _ :: _, [] => false
  | a :: as, b :: bs =>
    if a.toNat < b.toNat then true
    else if b.toNat < a.toNat then false
    else charListLt as bs

/-- Is a pre-release identifier numeric (all digits)? -/
def identIsNum (s : String) : Bool :=
  s.toList.all Char.isDigit

/-- Modelled from the spec: semver precedence on single pre-release
identifiers — numeric identifiers compare numerically and are lower than
alphanumeric ones, alphanumeric ones compare lexically. -/
def identLtB (a b : String) : Bool :=
  match identIsNum a, identIsNum b with
  | true, true => Nat.blt (digitsToNat a.toList) (digitsToNat b.toList)
  | true, false => true
  | false, true => false
  | false, false => charListLt a.toList b.toList

/-- Modelled from the spec: semver precedence on pre-release identifier
lists — identifier by identifier, a strict prefix being lower. -/
def preListLtB : List String → List String → Bool
  | _, [] => false
  | [], _ :: _ => true
  | a :: as, b :: bs =>
    if identLtB a b then true
    else if identLtB b a then false
    else preListLtB as bs

/-- Modelled from the spec: "standard semantic-version ordering (major, then
minor, then patch, then pre-release precedence)"; a version with a
pre-release is lower than the same core without one; build metadata is not
part of precedence. -/
def versionLtB (a b : Version) : Bool :=
  if a.major != b.major then Nat.blt a.major b.major
  else if a.minor != b.minor then Nat.blt a.minor b.minor
  else if a.patch != b.patch then Nat.blt a.patch b.patch
  else
    match a.pre, b.pre with
    | [], [] => false
    | [], _ :: _ => false
    | _ :: _, [] => true
    | x :: xs, y :: ys => preListLtB (x :: xs) (y :: ys)

/-- The comparison the probing loops perform: version >= min_version,
that is, not below the minimum in semantic-version order. -/
def versionGeB (v m : Version) : Bool :=
  !(versionLtB v m)

/-- Whitespace-trimming of a character list (str::trim on the ASCII
whitespace characters recognised by Char.isWhitespace). -/
def trimChars (l : List Char) : List Char :=
  ((l.dropWhile Char.isWhitespace).reverse.dropWhile Char.isWhitespace).reverse

/-- str::rsplit_once(c): split at the last occurrence of a character into
the part before it and the part after it; none when it does not occur. -/
def rsplitOnce (c : Char) : List Char → Option (List Char × List Char)
  | [] => none
  | x :: xs =>
    match rsplitOnce c xs with
    | some (b, a) => some (x :: b, a)
    | none => if x == c then some ([], xs) else none

/-- The parse_version helper of find_python_executable and of
try_docker_compose_standalone: the text after the last space character,
trimmed, parsed as a semantic version
(output.rsplit_once(' ')?.1.trim() then Version::parse). -/
def parse_version_space (output : String) : Option Version :=
  match rsplitOnce ' ' output.toList with
  | some (_, a) => Version.parseChars (trimChars a)
  | none => none

/-- The parse_version helper of try_docker_compose_plugin: the text after
the last literal v character, trimmed, parsed as a semantic version
(output.rsplit_once('v')?.1.trim() then Version::parse). -/
def parse_version_v (output : String) : Option Version :=
  match rsplitOnce 'v' output.toList with
  | some (_, a) => Version.parseChars (trimChars a)
  | none => none

/-- One pass of whitespace tokenisation: cur holds the reversed characters
of the token being read; a whitespace character ends the current token. -/
def wsTokensGo (cur : List Char) : List Char → List (List Char)
  | [] => if cur.isEmpty then [] else [cur.reverse]
  | c :: rest =>
    if Char.isWhitespace c then
      if cur.isEmpty then wsTokensGo [] rest
      else cur.reverse :: wsTokensGo [] rest
    else wsTokensGo (c :: cur) rest

/-- The nonempty maximal runs of non-whitespace characters of a character
list, in order: its whitespace-delimited tokens. -/
def wsTokens (l : List Char) : List (List Char) :=
  wsTokensGo [] l

/-- Stated from the spec's words, for comparison with the source parsers:
the last whitespace-delimited token of the output, parsed as a semantic
version. -/
def specLastWsToken (output : String) : Option Version :=
  match (wsTokens output.toList).getLast? with
  | some t => Version.parseChars t
  | none => none

/-- Stated from the amended words, for comparison with the source parsers:
the text following the last occurrence of the delimiter character, trimmed,
parsed as a semantic version; no value when the delimiter is absent. -/
def specAfterLast (c : Char) (s : String) : Option Version :=
  if s.toList.contains c then
    Version.parseChars (trimChars ((s.toList.reverse.takeWhile (fun d => d != c)).reverse))
  else none

/-- Outcome of launching one candidate with its version-query invocation:
the launch itself may fail (executable missing or not permitted), or the
process exits with a success flag and captured stdout. -/
inductive ProbeOutcome where
  | launchFailure
  | exited (success : Bool) (stdout : String)
deriving DecidableEq, Repr

/-- A probing world: what each candidate executable's version-query
invocation does. The probing loops are parameterised by it; in the source
it is the ambient operating system (Command::new(candidate).output()). -/
def ProbeWorld : Type := String → ProbeOutcome

/-- Does one candidate qualify in the probing loop's nested checks: launch
succeeded, exit status successful, output parses to a version, and that
version is at or above the minimum. -/
def probeQualifies (parse : String → Option Version) (min : Version)
    (world : ProbeWorld) (c : String) : Bool :=
  match world c with
  | .exited true out =>
    match parse out with
    | some v => versionGeB v min
    | none => false
  | _ => false

/-- The candidate loop shared by the three probing functions of the source:
try each candidate strictly in order, returning the first that qualifies
(the source writes the nested checks inline; a candidate failing any check
is skipped and probing continues). -/
def probeFirst (parse : String → Option Version) (min : Version)
    (world : ProbeWorld) : List String → Option String
  | [] => none
  | c :: cs =>
    if probeQualifies parse min world c then some c
    else probeFirst parse min world cs

/-- The candidates the loop actually launches: every candidate up to and
including the first qualifying one (all of them when none qualifies). -/
def probeAttempts (parse : String → Option Version) (min : Version)
    (world : ProbeWorld) : List String → List String
  | [] => []
  | c :: cs =>
    if probeQualifies parse min world c then [c]
    else c :: probeAttempts parse min world cs

/-- application::find_python_executable: parse the minimum version (failing
with NoPythonExecutable if unparseable), then probe the candidate list in
order with the space-delimited parser, returning the first qualifying
candidate, or NoPythonExecutable when the loop exhausts. The candidate
list (base names plus platform-specific paths, tilde-expanded) is passed
explicitly; the world maps each candidate to its python --version outcome. -/
def find_python_executable (min_version : String) (world : ProbeWorld)
    (candidates : List String) : Except Err String :=
  match Version.parse min_version with
  | none => .error .noPythonExecutable
  | some min =>
    match probeFirst parse_version_space min world candidates with
    | some c => .ok c
    | none => .error .noPythonExecutable

/-- application::try_docker_compose_plugin: probe the docker candidates in
order with docker compose version, parsing by the last literal v. -/
def try_docker_compose_plugin (min : Version) (world : ProbeWorld)
    (docker_candidates : List String) : Except Err String :=
  match probeFirst parse_version_v min world docker_candidates with
  | some c => .ok c
  | none => .error .noDockerComposeExecutable

/-- application::try_docker_compose_standalone: probe the docker-compose
candidates in order with --version, parsing by the last space. -/
def try_docker_compose_standalone (min : Version) (world : ProbeWorld)
    (docker_compose_candidates : List String) : Except Err String :=
  match probeFirst parse_version_space min world docker_compose_candidates with
  | some c => .ok c
  | none => .error .noDockerComposeExecutable

/-- application::find_docker_compose_executable: parse the minimum version
(failing with NoDockerComposeExecutable if unparseable), try the compose
plugin strategy, then the standalone strategy, else fail. Each strategy has
its own world since the two loops issue different invocations. -/
def find_docker_compose_executable (min_version : String)
    (plugin_world standalone_world : ProbeWorld)
    (plugin_candidates standalone_candidates : List String) : Except Err String :=
  match Version.parse min_version with
  | none => .error .noDockerComposeExecutable
  | some min =>
    match try_docker_compose_plugin min plugin_world plugin_candidates with
    | .ok c => .ok c
    | .error _ =>
      match try_docker_compose_standalone min standalone_world standalone_candidates with
      | .ok c => .ok c
      | .error _ => .error .noDockerComposeExecutable

/-- A filesystem node: a directory with named entries in enumeration order,
or a regular file with its contents. The filesystem state threaded through
the embedded operations is the root directory node. -/
inductive Node where
  | dir (entries : List (String × Node))
  | file (content : String)

/-- A path: the list of components from the filesystem root. -/
def FsPath : Type := List String

/-- Resolve a path to the node it names, if any. -/
def nodeAt : Node → List String → Option Node
  | n, [] => some n
  | .dir es, c :: p =>
    match es.find? (fun e => e.1 == c) with
    | some e => nodeAt e.2 p
    | none => none
  | .file _, _ :: _ => none

/-- Path::exists combined with Path::is_dir: the path names a directory. -/
def isDirAt (fs : Node) (p : List String) : Bool :=
  match nodeAt fs p with
  | some (.dir _) => true
  | _ => false

/-- A chain of fresh nested empty directories, one per component. -/
def mkDirChain : List String → Node
  | [] => .dir []
  | c :: p => .dir [(c, mkDirChain p)]

/-- std::fs::create_dir_all: create the directory at the path together with
all missing ancestors; existing directories are kept as they are (their
entries untouched); fails (none) only when a regular file occupies the path
or one of its ancestors — never because of mere absence. The empty path is
accepted without effect, as in the standard library. -/
def insertDir : Node → List String → Option Node
  | .dir es, [] => some (.dir es)
  | .file _, [] => none
  | .file _, _ :: _ => none
  | .dir es, c :: p =>
    match es.find? (fun e => e.1 == c) with
    | some e =>
      match insertDir e.2 p with
      | some m => some (.dir (es.map (fun e' => if e'.1 == c then (c, m) else e')))
      | none => none
    | none => some (.dir (es ++ [(c, mkDirChain p)]))

/-- File creation and write (File::create plus writing the serialised
contents, and std::fs::copy to a target path): the parent directory must
already exist; an existing file is overwritten; fails when the path or one
of its ancestors is of the wrong kind or a parent is missing. -/
def writeFileAt : Node → List String → String → Option Node
  | _, [], _ => none
  | .file _, _ :: _, _ => none
  | .dir es, [c], content =>
    match es.find? (fun e => e.1 == c) with
    | some (_, .dir _) => none
    | some (_, .file _) =>
      some (.dir (es.map (fun e' => if e'.1 == c then (c, .file content) else e')))
    | none => some (.dir (es ++ [(c, .file content)]))
  | .dir es, c :: p :: ps, content =>
    match es.find? (fun e => e.1 == c) with
    | some e =>
      match writeFileAt e.2 (p :: ps) content with
      | some m => some (.dir (es.map (fun e' => if e'.1 == c then (c, m) else e')))
      | none => none
    | none => none

/-- PathBuf::from on an override string, as a component list: the string is
split at separators, empty components dropped; the empty string is the
empty path. -/
def pathFromString (s : String) : List String :=
  ((splitOnChar '/' s.toList).map String.mk).filter (fun c => c != "")

/-- workshops::data_dir: starting at the current working directory, look for
a .workshops subdirectory that exists and is a directory; on failure pop the
last path component and retry, stopping (not found, no error) once the root
has been checked and has no parent left to pop. The search reads the
filesystem and never creates anything. -/
def workshops_data_dir (fs : Node) (cwd : List String) : Option (List String) :=
  if isDirAt fs (cwd ++ [".workshops"]) then some (cwd ++ [".workshops"])
  else
    match cwd with
    | [] => none
    | c :: p => workshops_data_dir fs (c :: p).dropLast
termination_by cwd.length
decreasing_by
  simp only [List.length_dropLast, List.length_cons]
  omega

/-- The working directory and its ancestors, nearest first, ending with the
filesystem root. -/
def ancestorChain : List String → List (List String)
  | [] => [[]]
  | c :: p => (c :: p) :: ancestorChain (c :: p).dropLast
termination_by l => l.length
decreasing_by
  simp only [List.length_dropLast, List.length_cons]
  omega

/-- The application data store location before creation: the WORKSHOPS_DIR
override whenever the variable is set (std::env::var returns its value for
any set variable), else the platform-standard directory derived by
directories::ProjectDirs from the io, libp2p, workshop triple, which may be
unavailable (none) on an unresolvable platform. The environment and the
platform resolution are the two external inputs. -/
def resolvedStorePath (env : Option String) (plat : Option (List String)) :
    Option (List String) :=
  match env with
  | some s => some (pathFromString s)
  | none => plat

/-- application::data_dir: resolve the store location (failing with
ApplicationDirsNotFound when the platform offers none and no override is
set), then create the directory with all missing ancestors. Returns the
resulting filesystem and the path, or the filesystem unchanged and the
error. -/
def application_data_dir (env : Option String) (plat : Option (List String))
    (fs : Node) : Node × Except Err (List String) :=
  match resolvedStorePath env plat with
  | none => (fs, .error .applicationDirsNotFound)
  | some d =>
    match insertDir fs d with
    | some fs' => (fs', .ok d)
    | none => (fs, .error .ioErr)

/-- The entry-copying loop of workshops::copy_tree: for each entry of the
source directory in order, recurse into subdirectories (re-checking and
creating the corresponding target directory) and copy files; the first
failure stops the walk and is propagated, leaving the partial copy. -/
def copyEntries : List (String × Node) → Node → List String → Node × Except Err Unit
  | [], fs, _ => (fs, .ok ())
  | (name, .file c) :: rest, fs, target =>
    (match writeFileAt fs (target ++ [name]) c with
     | some fs' => copyEntries rest fs' target
     | none => (fs, .error .ioErr))
  | (name, .dir es') :: rest, fs, target =>
    (match insertDir fs (target ++ [name]) with
     | none => (fs, .error .ioErr)
     | some fs1 =>
       match copyEntries es' fs1 (target ++ [name]) with
       | (fs2, .ok ()) => copyEntries rest fs2 target
       | (fs2, .error e) => (fs2, .error e))

/-- workshops::copy_tree: fail with WorkshopDataDirNotFound unless the
source is a directory; create the target directory and copy the source tree
(files and subdirectories, preserving structure) into it. The source
subtree is the snapshot read during the walk. -/
def copy_tree (src : Node) (fs : Node) (target : List String) : Node × Except Err Unit :=
  match src with
  | .file _ => (fs, .error .workshopDataDirNotFound)
  | .dir es =>
    match insertDir fs target with
    | none => (fs, .error .ioErr)
    | some fs1 => copyEntries es fs1 target

/-- workshops::init_data_dir: create cwd/.workshops (anchored at the
immediate working directory, not the upward search), resolve and create the
application data store, then: if the named workshop exists there as a
directory, recursively copy it under cwd/.workshops and return that path,
otherwise fail with WorkshopDataDirNotFound. -/
def init_data_dir (env : Option String) (plat : Option (List String))
    (fs : Node) (cwd : List String) (workshop : String) :
    Node × Except Err (List String) :=
  let workshops_dir := cwd ++ [".workshops"]
  match insertDir fs workshops_dir with
  | none => (fs, .error .ioErr)
  | some fs1 =>
    match application_data_dir env plat fs1 with
    | (fs2, .error e) => (fs2, .error e)
    | (fs2, .ok dpath) =>
      match nodeAt fs2 (dpath ++ [workshop]) with
      | some (.dir es) =>
        (match copy_tree (.dir es) fs2 (workshops_dir ++ [workshop]) with
         | (fs3, .ok ()) => (fs3, .ok workshops_dir)
         | (fs3, .error e) => (fs3, .error e))
      | _ => (fs2, .error .workshopDataDirNotFound)

/-- Status::save: if the upward search finds a .workshops directory, ensure
its parent directory exists and serialise the status to status.yaml inside
it, propagating any filesystem error before the config is saved; then save
the config (an external collaborator, modelled from the spec as an effect
that succeeds; the Bool records whether it ran). -/
def status_save (fs : Node) (cwd : List String) (yaml : String) :
    Node × Bool × Except Err Unit :=
  match workshops_data_dir fs cwd with
  | some d =>
    (match insertDir fs d with
     | some fs1 =>
       match writeFileAt fs1 (d ++ ["status.yaml"]) yaml with
       | some fs2 => (fs2, true, .ok ())
       | none => (fs1, false, .error .ioErr)
     | none => (fs, false, .error .ioErr))
  | none => (fs, true, .ok ())

/-- HashMap::insert on a map modelled as a keyed association list: replace
the value at an existing key, otherwise add the binding. -/
def hmInsert {W : Type} (m : List (String × W)) (k : String) (v : W) :
    List (String × W) :=
  if m.any (fun e => e.1 == k) then
    m.map (fun e => if e.1 == k then (k, v) else e)
  else m ++ [(k, v)]

/-- HashMap lookup on the association-list model. -/
def hmGet {W : Type} (m : List (String × W)) (k : String) : Option W :=
  (m.find? (fun e => e.1 == k)).map (fun e => e.2)

/-- HashMap::extend: insert every binding of the second map in order, later
bindings overriding earlier ones of the same key. -/
def hmExtend {W : Type} (m l : List (String × W)) : List (String × W) :=
  l.foldl (fun acc e => hmInsert acc e.1 e.2) m

/-- The entry loop of workshops::load_workshop_data: for each entry of the
store directory in enumeration order, skip non-directories, load each
subdirectory as a workshop via the external loader (propagating its
failure), and insert it under its name. -/
def loadEntries {W : Type} (loader : String → List String → Except Err W)
    (dir : List String) : List (String × Node) → List (String × W) →
    Except Err (List (String × W))
  | [], acc => .ok acc
  | (name, .dir _) :: rest, acc =>
    (match loader name dir with
     | .ok w => loadEntries loader dir rest (hmInsert acc name w)
     | .error e => .error e)
  | (_, .file _) :: rest, acc => loadEntries loader dir rest acc

/-- workshops::load_workshop_data: fail with WorkshopDataDirNotFound unless
the given store path exists and is a directory, then build the map of its
workshop subdirectories. The per-workshop loader (workshop::Loader, an
external collaborator) is a parameter. -/
def load_workshop_data {W : Type} (loader : String → List String → Except Err W)
    (fs : Node) (dir : List String) : Except Err (List (String × W)) :=
  match nodeAt fs dir with
  | some (.dir es) => loadEntries loader dir es []
  | _ => .error .workshopDataDirNotFound

/-- application::all_workshops: load the workshop map of the application
data store (resolving and creating it first), then, if the upward search
finds a local .workshops store, load its map the same way and extend the
first map with it, local entries overriding. -/
def all_workshops {W : Type} (loader : String → List String → Except Err W)
    (env : Option String) (plat : Option (List String)) (fs : Node)
    (cwd : List String) : Node × Except Err (List (String × W)) :=
  match application_data_dir env plat fs with
  | (fs1, .error e) => (fs1, .error e)
  | (fs1, .ok dpath) =>
    match load_workshop_data loader fs1 dpath with
    | .error e => (fs1, .error e)
    | .ok m =>
      match workshops_data_dir fs1 cwd with
      | none => (fs1, .ok m)
      | some lpath =>
        match load_workshop_data loader fs1 lpath with
        | .error e => (fs1, .error e)
        | .ok m2 => (fs1, .ok (hmExtend m m2))

/-- Modelled from the spec: the spoken-language codes declared by workshops
(languages::spoken::Code is outside the excerpted core); an enumeration
with the derived total order of the language codes the spec's example
uses. -/
inductive SpokenCode where
  | de
  | en
  | es
  | fr
deriving DecidableEq, Repr

/-- Rank of a spoken-language code in the derived order. -/
def SpokenCode.toNat : SpokenCode → Nat
  | .de => 0
  | .en => 1
  | .es => 2
  | .fr => 3

/-- The derived Ord order on spoken-language codes, as a relation. -/
def spokenR (a b : SpokenCode) : Prop :=
  a.toNat ≤ b.toNat

instance : DecidableRel spokenR := fun a b =>
  inferInstanceAs (Decidable (a.toNat ≤ b.toNat))

instance : IsTotal SpokenCode spokenR :=
  ⟨fun a b => Nat.le_total a.toNat b.toNat⟩

instance : IsTrans SpokenCode spokenR :=
  ⟨fun _ _ _ h h' => Nat.le_trans h h'⟩

theorem SpokenCode.toNat_inj {a b : SpokenCode} (h : a.toNat = b.toNat) : a = b := by
  cases a <;> cases b <;> simp_all [SpokenCode.toNat]

instance : IsAntisymm SpokenCode spokenR :=
  ⟨fun _ _ h h' => SpokenCode.toNat_inj (Nat.le_antisymm h h')⟩

/-- Vec::dedup: remove the consecutive repeats of a list, keeping the first
element of each run. -/
def rustDedup {α : Type} [BEq α] : List α → List α
  | [] => []
  | [a] => [a]
  | a :: b :: rest =>
    if a == b then rustDedup (b :: rest)
    else a :: rustDedup (b :: rest)

/-- application::all_spoken_languages: flat-map the per-workshop spoken
languages over the merged workshop values (in the map's iteration order),
sort (Vec::sort is a stable sort, modelled by insertion sort), and dedup.
The per-workshop language query (WorkshopData::get_all_spoken_languages,
an external collaborator) is a parameter. -/
def all_spoken_languages {W : Type} (getLangs : W → List SpokenCode)
    (ws : List W) : List SpokenCode :=
  rustDedup (List.insertionSort spokenR ((ws.map getLangs).flatten))

theorem probeQualifies_iff {parse : String → Option Version} {min : Version}
    {world : ProbeWorld} {c : String} :
    probeQualifies parse min world c = true ↔
      ∃ out v, world c = .exited true out ∧ parse out = some v ∧ versionGeB v min = true := by
  unfold probeQualifies
  cases hw : world c with
  | launchFailure => simp
  | exited s out =>
    cases s with
    | false => simp
    | true =>
      cases hp : parse out with
      | none => simp [hp]
      | some v =>
        simp only [hp]
        constructor
        · intro hge
          exact ⟨out, v, rfl, hp, hge⟩
        · rintro ⟨out', v', he, hp', hge⟩
          cases he
          rw [hp] at hp'
          cases hp'
          exact hge

theorem probeFirst_eq_some {parse : String → Option Version} {min : Version}
    {world : ProbeWorld} {cs : List String} {c : String}
    (h : probeFirst parse min world cs = some c) :
    ∃ pre post, cs = pre ++ c :: post ∧
      (∀ x ∈ pre, probeQualifies parse min world x = false) ∧
      probeQualifies parse min world c = true ∧
      probeAttempts parse min world cs = pre ++ [c] := by
  induction cs with
  | nil => simp [probeFirst] at h
  | cons d cs ih =>
    by_cases hq : probeQualifies parse min world d = true
    · rw [probeFirst, if_pos hq] at h
      cases h
      exact ⟨[], cs, rfl, by simp, hq, by simp [probeAttempts, hq]⟩
    · rw [probeFirst, if_neg hq] at h
      obtain ⟨pre, post, hcs, hpre, hc, hat⟩ := ih h
      refine ⟨d :: pre, post, by simp [hcs], ?_, hc, ?_⟩
      · intro x hx
        rcases List.mem_cons.mp hx with hx | hx
        · subst hx
          exact Bool.not_eq_true _ ▸ Bool.of_not_eq_true hq
        · exact hpre x hx
      · rw [probeAttempts, if_neg hq, hat]
        simp

/-- A concrete probing world used to exhibit the probing behaviour: the
first candidate fails to launch, the second reports Python 3.8.0, every
other candidate reports Python 3.10.1. -/
def exampleWorld : ProbeWorld := fun s =>
  if s = "pyA" then .launchFailure
  else if s = "pyB" then .exited true "Python 3.8.0"
  else .exited true "Python 3.10.1"

/-- C1: for every ordered candidate list, find_python_executable tries
candidates strictly in order and returns the first candidate whose probe
launches successfully, exits with success, parses to a semantic version at
or above the minimum; no candidate after the returned one is attempted. In
particular, for a list where the first fails to launch, the second reports
a version below the minimum and the third a version at or above it, the
result is the third and all three (and only they) are attempted. -/
theorem claim_C1_probe_order :
    (∀ (min_version : String) (min : Version) (world : ProbeWorld)
      (cs : List String) (c : String),
      Version.parse min_version = some min →
      find_python_executable min_version world cs = .ok c →
      ∃ pre post, cs = pre ++ c :: post ∧
        (∀ x ∈ pre, probeQualifies parse_version_space min world x = false) ∧
        probeQualifies parse_version_space min world c = true ∧
        probeAttempts parse_version_space min world cs = pre ++ [c]) ∧
    (∀ (world : ProbeWorld) (a b c min_version : String) (min vb vc : Version)
      (outb outc : String),
      Version.parse min_version = some min →
      world a = .launchFailure →
      world b = .exited true outb →
      parse_version_space outb = some vb →
      versionGeB vb min = false →
      world c = .exited true outc →
      parse_version_space outc = some vc →
      versionGeB vc min = true →
      find_python_executable min_version world [a, b, c] = .ok c ∧
      probeAttempts parse_version_space min world [a, b, c] = [a, b, c]) := by
  constructor
  · intro min_version min world cs c hmin hok
    simp only [find_python_executable, hmin] at hok
    cases hpf : probeFirst parse_version_space min world cs with
    | none => simp only [hpf] at hok; cases hok
    | some c' =>
      simp only [hpf] at hok
      cases hok
      exact probeFirst_eq_some hpf
  · intro world a b c min_version min vb vc outb outc hmin ha hb hpb hgb hc hpc hgc
    have hqa : probeQualifies parse_version_space min world a = false := by
      simp [probeQualifies, ha]
    have hqb : probeQualifies parse_version_space min world b = false := by
      simp [probeQualifies, hb, hpb, hgb]
    have hqc : probeQualifies parse_version_space min world c = true := by
      simp [probeQualifies, hc, hpc, hgc]
    constructor
    · simp only [find_python_executable, hmin, probeFirst, hqa, hqb, hqc]
      simp
    · simp only [probeAttempts, hqa, hqb, hqc]
      simp

theorem claim_C1_probe_order_witness :
    Version.parse "3.9.0" = some ⟨3, 9, 0, [], []⟩ ∧
    exampleWorld "pyA" = .launchFailure ∧
    exampleWorld "pyB" = .exited true "Python 3.8.0" ∧
    parse_version_space "Python 3.8.0" = some ⟨3, 8, 0, [], []⟩ ∧
    versionGeB ⟨3, 8, 0, [], []⟩ ⟨3, 9, 0, [], []⟩ = false ∧
    exampleWorld "pyC" = .exited true "Python 3.10.1" ∧
    parse_version_space "Python 3.10.1" = some ⟨3, 10, 1, [], []⟩ ∧
    versionGeB ⟨3, 10, 1, [], []⟩ ⟨3, 9, 0, [], []⟩ = true ∧
    find_python_executable "3.9.0" exampleWorld ["pyA", "pyB", "pyC"] = .ok "pyC" ∧
    probeAttempts parse_version_space ⟨3, 9, 0, [], []⟩ exampleWorld
      ["pyA", "pyB", "pyC"] = ["pyA", "pyB", "pyC"] := by
  refine ⟨by decide, by decide, by decide, by decide, by decide, by decide, by decide,
    by decide, ?_⟩
  exact claim_C1_probe_order.2 exampleWorld "pyA" "pyB" "pyC" "3.9.0"
    ⟨3, 9, 0, [], []⟩ ⟨3, 8, 0, [], []⟩ ⟨3, 10, 1, [], []⟩
    "Python 3.8.0" "Python 3.10.1"
    (by decide) (by decide) (by decide) (by decide) (by decide) (by decide)
    (by decide) (by decide)

/-- C2: whenever a probe returns a Found result (find_python_executable,
try_docker_compose_plugin or try_docker_compose_standalone returns a
candidate), the semantic version parsed from that candidate's version-query
output is at or above the requested minimum version. -/
theorem claim_C2_found_version_ge_min :
    (∀ (min_version : String) (world : ProbeWorld) (cs : List String) (c : String),
      find_python_executable min_version world cs = .ok c →
      ∃ min out v, Version.parse min_version = some min ∧
        world c = .exited true out ∧
        parse_version_space out = some v ∧ versionGeB v min = true) ∧
    (∀ (min : Version) (world : ProbeWorld) (cs : List String) (c : String),
      try_docker_compose_plugin min world cs = .ok c →
      ∃ out v, world c = .exited true out ∧
        parse_version_v out = some v ∧ versionGeB v min = true) ∧
    (∀ (min : Version) (world : ProbeWorld) (cs : List String) (c : String),
      try_docker_compose_standalone min world cs = .ok c →
      ∃ out v, world c = .exited true out ∧
        parse_version_space out = some v ∧ versionGeB v min = true) := by
  refine ⟨?_, ?_, ?_⟩
  · intro min_version world cs c hok
    cases hmin : Version.parse min_version with
    | none => simp only [find_python_executable, hmin] at hok; cases hok
    | some min =>
      simp only [find_python_executable, hmin] at hok
      cases hpf : probeFirst parse_version_space min world cs with
      | none => simp only [hpf] at hok; cases hok
      | some c' =>
        simp only [hpf] at hok
        cases hok
        obtain ⟨_, _, _, _, hq, _⟩ := probeFirst_eq_some hpf
        obtain ⟨out, v, hw, hp, hge⟩ := probeQualifies_iff.mp hq
        exact ⟨min, out, v, rfl, hw, hp, hge⟩
  · intro min world cs c hok
    simp only [try_docker_compose_plugin] at hok
    cases hpf : probeFirst parse_version_v min world cs with
    | none => simp only [hpf] at hok; cases hok
    | some c' =>
      simp only [hpf] at hok
      cases hok
      obtain ⟨_, _, _, _, hq, _⟩ := probeFirst_eq_some hpf
      exact probeQualifies_iff.mp hq
  · intro min world cs c hok
    simp only [try_docker_compose_standalone] at hok
    cases hpf : probeFirst parse_version_space min world cs with
    | none => simp only [hpf] at hok; cases hok
    | some c' =>
      simp only [hpf] at hok
      cases hok
      obtain ⟨_, _, _, _, hq, _⟩ := probeFirst_eq_some hpf
      exact probeQualifies_iff.mp hq

theorem claim_C2_found_version_ge_min_witness :
    find_python_executable "3.9.0" exampleWorld ["pyC"] = .ok "pyC" ∧
    (∃ min out v, Version.parse "3.9.0" = some min ∧
      exampleWorld "pyC" = .exited true out ∧
      parse_version_space out = some v ∧ versionGeB v min = true) :=
  ⟨by rfl, claim_C2_found_version_ge_min.1 "3.9.0" exampleWorld ["pyC"] "pyC" (by rfl)⟩

/-- Does an ancestor directory have a .workshops subdirectory? The predicate
the upward search tests at each level. -/
def hasWorkshopsDir (fs : Node) (a : List String) : Bool :=
  isDirAt fs (a ++ [".workshops"])

theorem workshops_data_dir_eq (fs : Node) (cwd : List String) :
    workshops_data_dir fs cwd =
      ((ancestorChain cwd).find? (hasWorkshopsDir fs)).map
        (fun a => a ++ [".workshops"]) := by
  induction cwd using workshops_data_dir.induct fs with
  | case1 x hdir =>
    have h' : hasWorkshopsDir fs x = true := hdir
    cases x with
    | nil =>
      rw [workshops_data_dir, if_pos hdir, ancestorChain, List.find?_cons_of_pos _ h']
      rfl
    | cons c p =>
      rw [workshops_data_dir, if_pos hdir, ancestorChain, List.find?_cons_of_pos _ h']
      rfl
  | case2 hdir =>
    have h' : ¬hasWorkshopsDir fs [] = true := hdir
    rw [workshops_data_dir, if_neg hdir, ancestorChain, List.find?_cons_of_neg _ h']
    rfl
  | case3 c p hdir ih =>
    have h' : ¬hasWorkshopsDir fs (c :: p) = true := hdir
    rw [workshops_data_dir, if_neg hdir, ancestorChain, List.find?_cons_of_neg _ h']
    exact ih

/-- A concrete filesystem /x/y/z with /x/.workshops present and no
.workshops under y or z. -/
def exampleTree : Node :=
  .dir [("x", .dir [(".workshops", .dir []),
                    ("y", .dir [("z", .dir [])])])]

/-- C3: the local workspace lookup returns the .workshops directory of the
nearest ancestor (starting at the working directory itself) that has such a
subdirectory which is a directory; it returns none — not an error — when no
ancestor up to and including the root has one; the lookup only reads the
filesystem (it is a pure function of it). In particular, with cwd /x/y/z
and only /x/.workshops present it returns /x/.workshops. -/
theorem claim_C3_upward_search :
    (∀ (fs : Node) (cwd : List String),
      workshops_data_dir fs cwd =
        ((ancestorChain cwd).find? (hasWorkshopsDir fs)).map
          (fun a => a ++ [".workshops"])) ∧
    (∀ (fs : Node) (cwd : List String),
      (∀ a ∈ ancestorChain cwd, hasWorkshopsDir fs a = false) →
      workshops_data_dir fs cwd = none) ∧
    workshops_data_dir exampleTree ["x", "y", "z"] = some ["x", ".workshops"] := by
  refine ⟨workshops_data_dir_eq, ?_,
    by simp [workshops_data_dir, exampleTree, isDirAt, nodeAt]⟩
  intro fs cwd h
  rw [workshops_data_dir_eq, List.find?_eq_none.mpr, Option.map_none']
  intro a ha
  rw [h a ha]
  simp

theorem claim_C3_upward_search_witness :
    (∀ a ∈ ancestorChain ["a", "b"], hasWorkshopsDir (.dir []) a = false) ∧
    workshops_data_dir (.dir []) ["a", "b"] = none := by
  have h : ∀ a ∈ ancestorChain ["a", "b"], hasWorkshopsDir (.dir []) a = false := by
    simp [ancestorChain, hasWorkshopsDir, isDirAt, nodeAt]
  exact ⟨h, claim_C3_upward_search.2.1 (.dir []) ["a", "b"] h⟩

theorem find?_replace_self {W : Type} (m : W) {es : List (String × W)} {c : String}
    {a : String × W} (h : es.find? (fun e => e.1 == c) = some a) :
    (es.map (fun e' => if e'.1 == c then (c, m) else e')).find?
      (fun e => e.1 == c) = some (c, m) := by
  induction es with
  | nil => simp at h
  | cons e es ih =>
    by_cases hc : e.1 = c
    · simp [List.find?_cons, hc]
    · have hb : (e.1 == c) = false := beq_eq_false_iff_ne.mpr hc
      simp only [List.find?_cons, hb] at h
      simp only [List.map_cons, hb, Bool.false_eq_true, if_false]
      rw [List.find?_cons_of_neg _ (by simp [hb])]
      exact ih h

theorem find?_replace_ne {W : Type} (m : W) {es : List (String × W)} {c d : String}
    (hne : d ≠ c) :
    (es.map (fun e' => if e'.1 == c then (c, m) else e')).find?
      (fun e => e.1 == d) = es.find? (fun e => e.1 == d) := by
  induction es with
  | nil => simp
  | cons e es ih =>
    by_cases hc : e.1 = c
    · have hd : (e.1 == d) = false := beq_eq_false_iff_ne.mpr (by rw [hc]; exact fun h => hne h.symm)
      have hcd : (c == d) = false := beq_eq_false_iff_ne.mpr (fun h => hne h.symm)
      have hbt : (e.1 == c) = true := beq_iff_eq.mpr hc
      simp only [List.map_cons, hbt, if_true]
      rw [List.find?_cons_of_neg _ (by simp [hcd]), List.find?_cons_of_neg _ (by simp [hd])]
      exact ih
    · have hb : (e.1 == c) = false := beq_eq_false_iff_ne.mpr hc
      simp only [List.map_cons, hb, Bool.false_eq_true, if_false]
      rw [List.find?_cons, List.find?_cons]
      cases hed : (e.1 == d) with
      | true => rfl
      | false => exact ih

theorem mkDirChain_nodeAt (p : List String) :
    nodeAt (mkDirChain p) p = some (.dir []) := by
  induction p with
  | nil => rfl
  | cons c p ih => simp [mkDirChain, nodeAt, ih]

theorem mkDirChain_nodeAt_not_prefix :
    ∀ {p q : List String}, ¬(q <+: p) → nodeAt (mkDirChain p) q = none := by
  intro p
  induction p with
  | nil =>
    intro q h
    cases q with
    | nil => exact absurd (List.nil_prefix) h
    | cons d q' => rfl
  | cons c p ih =>
    intro q h
    cases q with
    | nil => exact absurd (List.nil_prefix) h
    | cons d q' =>
      by_cases hd : d = c
      · subst hd
        have h' : ¬(q' <+: p) := fun hp => h (List.cons_prefix_cons.mpr ⟨rfl, hp⟩)
        simpa [mkDirChain, nodeAt] using ih h'
      · simp [mkDirChain, nodeAt, List.find?_cons,
          beq_eq_false_iff_ne.mpr (fun hcd : c = d => hd hcd.symm)]

theorem insertDir_isDir :
    ∀ {p : List String} {fs fs' : Node}, insertDir fs p = some fs' →
      isDirAt fs' p = true := by
  intro p
  induction p with
  | nil =>
    intro fs fs' h
    cases fs with
    | dir es => cases h; rfl
    | file s => simp [insertDir] at h
  | cons c p ih =>
    intro fs fs' h
    cases fs with
    | file s => simp [insertDir] at h
    | dir es =>
      simp only [insertDir] at h
      cases hf : es.find? (fun e => e.1 == c) with
      | some a =>
        simp only [hf] at h
        cases hi : insertDir a.2 p with
        | some m =>
          simp only [hi] at h
          cases h
          have hrep := find?_replace_self m hf
          simp only [isDirAt, nodeAt, hrep]
          exact ih hi
        | none => simp only [hi] at h; cases h
      | none =>
        simp only [hf] at h
        cases h
        simp only [isDirAt, nodeAt, List.find?_append, hf, Option.none_orElse]
        simp only [List.find?_cons, beq_self_eq_true]
        have := mkDirChain_nodeAt p
        simp [this]

theorem insertDir_nodeAt_not_prefix :
    ∀ {p : List String} {fs fs' : Node}, insertDir fs p = some fs' →
      ∀ {q : List String}, ¬(q <+: p) → nodeAt fs' q = nodeAt fs q := by
  intro p
  induction p with
  | nil =>
    intro fs fs' h q hq
    cases fs with
    | dir es => cases h; rfl
    | file s => simp [insertDir] at h
  | cons c p ih =>
    intro fs fs' h q hq
    cases fs with
    | file s => simp [insertDir] at h
    | dir es =>
      simp only [insertDir] at h
      cases hf : es.find? (fun e => e.1 == c) with
      | some a =>
        simp only [hf] at h
        cases hi : insertDir a.2 p with
        | some m =>
          simp only [hi] at h
          cases h
          cases q with
          | nil => exact absurd List.nil_prefix hq
          | cons d q' =>
            by_cases hd : d = c
            · subst hd
              have hq' : ¬(q' <+: p) := fun hp => hq (List.cons_prefix_cons.mpr ⟨rfl, hp⟩)
              simp only [nodeAt, find?_replace_self m hf, hf]
              exact ih hi hq'
            · simp only [nodeAt, find?_replace_ne m hd]
        | none => simp only [hi] at h; cases h
      | none =>
        simp only [hf] at h
        cases h
        cases q with
        | nil => exact absurd List.nil_prefix hq
        | cons d q' =>
          by_cases hd : d = c
          · subst hd
            have hq' : ¬(q' <+: p) := fun hp => hq (List.cons_prefix_cons.mpr ⟨rfl, hp⟩)
            simp only [nodeAt, List.find?_append, hf, Option.none_or,
              List.find?_cons, beq_self_eq_true]
            exact mkDirChain_nodeAt_not_prefix hq'
          · have happ : List.find? (fun e => e.1 == d) [(c, mkDirChain p)] = none := by
              simp [beq_eq_false_iff_ne.mpr (fun h : c = d => hd h.symm)]
            simp only [nodeAt, List.find?_append, happ, Option.or_none]

theorem isDirAt_iff {fs : Node} {q : List String} :
    isDirAt fs q = true ↔ ∃ ds, nodeAt fs q = some (.dir ds) := by
  unfold isDirAt
  cases h : nodeAt fs q with
  | none => simp
  | some n =>
    cases n with
    | dir ds => simp
    | file s => simp

theorem insertDir_preserves_dirNode :
    ∀ {p : List String} {fs fs' : Node}, insertDir fs p = some fs' →
      ∀ {q : List String} {ds : List (String × Node)}, nodeAt fs q = some (.dir ds) →
        ∃ ds', nodeAt fs' q = some (.dir ds') := by
  intro p
  induction p with
  | nil =>
    intro fs fs' h q ds hdir
    cases fs with
    | dir es => cases h; exact ⟨ds, hdir⟩
    | file s => simp [insertDir] at h
  | cons c p ih =>
    intro fs fs' h q ds hdir
    cases fs with
    | file s => simp [insertDir] at h
    | dir es =>
      simp only [insertDir] at h
      cases hf : es.find? (fun e => e.1 == c) with
      | some a =>
        simp only [hf] at h
        cases hi : insertDir a.2 p with
        | some m =>
          simp only [hi] at h
          cases h
          cases q with
          | nil => exact ⟨_, rfl⟩
          | cons d q' =>
            by_cases hd : d = c
            · subst hd
              simp only [nodeAt, hf] at hdir
              simp only [nodeAt, find?_replace_self m hf]
              exact ih hi hdir
            · simp only [nodeAt, find?_replace_ne m hd]
              simp only [nodeAt] at hdir
              exact ⟨ds, hdir⟩
        | none => simp only [hi] at h; cases h
      | none =>
        simp only [hf] at h
        cases h
        cases q with
        | nil => exact ⟨_, rfl⟩
        | cons d q' =>
          by_cases hd : d = c
          · subst hd
            simp only [nodeAt, hf] at hdir
            cases hdir
          · have happ : List.find? (fun e => e.1 == d) [(c, mkDirChain p)] = none := by
              simp [beq_eq_false_iff_ne.mpr (fun h : c = d => hd h.symm)]
            simp only [nodeAt, List.find?_append, happ, Option.or_none]
            simp only [nodeAt] at hdir
            exact ⟨ds, hdir⟩

theorem insertDir_preserves_isDir {p : List String} {fs fs' : Node}
    (h : insertDir fs p = some fs') {q : List String}
    (hq : isDirAt fs q = true) : isDirAt fs' q = true := by
  obtain ⟨ds, hds⟩ := isDirAt_iff.mp hq
  obtain ⟨ds', hds'⟩ := insertDir_preserves_dirNode h hds
  exact isDirAt_iff.mpr ⟨ds', hds'⟩

theorem not_prefix_of_longer {α : Type} {q p : List α} (h : p.length < q.length) :
    ¬(q <+: p) :=
  fun hp => absurd hp.length_le (by omega)

theorem application_data_dir_ok {env : Option String} {plat : Option (List String)}
    {fs fs' : Node} {d : List String}
    (h : application_data_dir env plat fs = (fs', .ok d)) :
    resolvedStorePath env plat = some d ∧ insertDir fs d = some fs' := by
  unfold application_data_dir at h
  cases hr : resolvedStorePath env plat with
  | none => simp only [hr] at h; simp [Prod.ext_iff] at h
  | some d' =>
    simp only [hr] at h
    cases hi : insertDir fs d' with
    | some fs'' =>
      simp only [hi] at h
      cases h
      exact ⟨rfl, hi⟩
    | none => simp only [hi] at h; simp [Prod.ext_iff] at h

theorem application_data_dir_error {env : Option String} {plat : Option (List String)}
    {fs fs' : Node} {e : Err}
    (h : application_data_dir env plat fs = (fs', .error e)) :
    e = .applicationDirsNotFound ∨ e = .ioErr := by
  unfold application_data_dir at h
  cases hr : resolvedStorePath env plat with
  | none =>
    simp only [hr] at h
    simp [Prod.ext_iff] at h
    exact Or.inl h.2.symm
  | some d' =>
    simp only [hr] at h
    cases hi : insertDir fs d' with
    | some fs'' => simp only [hi] at h; simp [Prod.ext_iff] at h
    | none =>
      simp only [hi] at h
      simp [Prod.ext_iff] at h
      exact Or.inr h.2.symm

theorem mkDirChain_prefix_isDir :
    ∀ {p q : List String}, q <+: p → isDirAt (mkDirChain p) q = true := by
  intro p
  induction p with
  | nil =>
    intro q hq
    rw [List.prefix_nil.mp hq]
    rfl
  | cons c p ih =>
    intro q hq
    cases q with
    | nil => rfl
    | cons d q' =>
      obtain ⟨rfl, hq'⟩ := List.cons_prefix_cons.mp hq
      have := ih hq'
      simp only [isDirAt, mkDirChain, nodeAt, List.find?_cons, beq_self_eq_true] at this ⊢
      exact this

theorem insertDir_prefix_isDir :
    ∀ {p : List String} {fs fs' : Node}, insertDir fs p = some fs' →
      ∀ {q : List String}, q <+: p → isDirAt fs' q = true := by
  intro p
  induction p with
  | nil =>
    intro fs fs' h q hq
    rw [List.prefix_nil.mp hq]
    cases fs with
    | dir es => cases h; rfl
    | file s => simp [insertDir] at h
  | cons c p ih =>
    intro fs fs' h q hq
    cases fs with
    | file s => simp [insertDir] at h
    | dir es =>
      simp only [insertDir] at h
      cases hf : es.find? (fun e => e.1 == c) with
      | some a =>
        simp only [hf] at h
        cases hi : insertDir a.2 p with
        | some m =>
          simp only [hi] at h
          cases h
          cases q with
          | nil => rfl
          | cons d q' =>
            obtain ⟨rfl, hq'⟩ := List.cons_prefix_cons.mp hq
            simp only [isDirAt, nodeAt, find?_replace_self m hf]
            have := ih hi hq'
            rw [isDirAt] at this
            exact this
        | none => simp only [hi] at h; cases h
      | none =>
        simp only [hf] at h
        cases h
        cases q with
        | nil => rfl
        | cons d q' =>
          obtain ⟨rfl, hq'⟩ := List.cons_prefix_cons.mp hq
          simp only [isDirAt, nodeAt, List.find?_append, hf, Option.none_or,
            List.find?_cons, beq_self_eq_true]
          have := mkDirChain_prefix_isDir hq'
          rw [isDirAt] at this
          exact this

theorem copyEntries_error :
    ∀ {es : List (String × Node)} {fs fs' : Node} {t : List String} {e : Err},
      copyEntries es fs t = (fs', .error e) → e = .ioErr := by
  have main : ∀ (es : List (String × Node)) (fs : Node) (t : List String),
      ∀ fs' e, copyEntries es fs t = (fs', .error e) → e = .ioErr := by
    intro es fs t
    induction es, fs, t using copyEntries.induct with
    | case1 fs t =>
      intro fs' e h
      simp only [copyEntries] at h
      simp [Prod.ext_iff] at h
    | case2 name c rest fs target m hw ih =>
      intro fs' e h
      simp only [copyEntries, hw] at h
      exact ih fs' e h
    | case3 name c rest fs target hw =>
      intro fs' e h
      simp only [copyEntries, hw] at h
      simp [Prod.ext_iff] at h
      exact h.2.symm
    | case4 name es' rest fs target hi =>
      intro fs' e h
      simp only [copyEntries, hi] at h
      simp [Prod.ext_iff] at h
      exact h.2.symm
    | case5 name es' rest fs target fs1 hi fs2 hc ih1 ih2 =>
      intro fs' e h
      simp only [copyEntries, hi, hc] at h
      exact ih2 fs' e h
    | case6 name es' rest fs target fs1 hi fs2 e2 hc ih1 =>
      intro fs' e h
      simp only [copyEntries, hi, hc] at h
      simp [Prod.ext_iff] at h
      rw [← h.2]
      exact ih1 fs2 e2 hc
  intro es fs fs' t e h
  exact main es fs t fs' e h

theorem copy_tree_error {src fs fs' : Node} {t : List String} {e : Err}
    (hsrc : ∃ es, src = .dir es)
    (h : copy_tree src fs t = (fs', .error e)) : e = .ioErr := by
  obtain ⟨es, rfl⟩ := hsrc
  simp only [copy_tree] at h
  cases hi : insertDir fs t with
  | none => simp only [hi] at h; simp [Prod.ext_iff] at h; exact h.2.symm
  | some fs1 =>
    simp only [hi] at h
    exact copyEntries_error h

/-- C4: for every workshop identifier that does not name an existing
directory in the application data store (at the moment of the check, after
the two store directories have been ensured), init_data_dir fails with the
workshop-data-directory-not-found condition and performs no copy at all:
the returned filesystem is exactly the pre-copy state, and — whenever the
application data store does not itself lie under the local workshop path —
the local workspace entry of that workshop is untouched (in particular it
is still absent if it was absent before). -/
theorem claim_C4_init_missing_workshop :
    ∀ (env : Option String) (plat : Option (List String)) (fs fs1 fs2 : Node)
      (cwd dpath : List String) (w : String),
      insertDir fs (cwd ++ [".workshops"]) = some fs1 →
      application_data_dir env plat fs1 = (fs2, .ok dpath) →
      isDirAt fs2 (dpath ++ [w]) = false →
      init_data_dir env plat fs cwd w = (fs2, .error .workshopDataDirNotFound) ∧
      (¬((cwd ++ [".workshops", w]) <+: dpath) →
        nodeAt fs2 (cwd ++ [".workshops", w]) = nodeAt fs (cwd ++ [".workshops", w])) := by
  intro env plat fs fs1 fs2 cwd dpath w h1 h2 h3
  constructor
  · simp only [init_data_dir, h1, h2]
    cases hn : nodeAt fs2 (dpath ++ [w]) with
    | none => rfl
    | some n =>
      cases n with
      | dir ds =>
        exfalso
        rw [isDirAt, hn] at h3
        cases h3
      | file s => rfl
  · intro hnp
    obtain ⟨hr, hi⟩ := application_data_dir_ok h2
    have hlong : ¬((cwd ++ [".workshops", w]) <+: (cwd ++ [".workshops"])) := by
      apply not_prefix_of_longer
      simp
    have s1 : nodeAt fs1 (cwd ++ [".workshops", w]) =
        nodeAt fs (cwd ++ [".workshops", w]) :=
      insertDir_nodeAt_not_prefix h1 hlong
    have s2 : nodeAt fs2 (cwd ++ [".workshops", w]) =
        nodeAt fs1 (cwd ++ [".workshops", w]) :=
      insertDir_nodeAt_not_prefix hi hnp
    rw [s2, s1]

theorem claim_C4_init_missing_workshop_witness :
    insertDir (.dir []) ([] ++ [".workshops"]) = some (.dir [(".workshops", .dir [])]) ∧
    application_data_dir none (some ["app"]) (.dir [(".workshops", .dir [])]) =
      (.dir [(".workshops", .dir []), ("app", .dir [])], .ok ["app"]) ∧
    isDirAt (.dir [(".workshops", .dir []), ("app", .dir [])]) (["app"] ++ ["w"]) = false ∧
    init_data_dir none (some ["app"]) (.dir []) [] "w" =
      (.dir [(".workshops", .dir []), ("app", .dir [])], .error .workshopDataDirNotFound) ∧
    (¬(([] ++ [".workshops", "w"]) <+: ["app"]) →
      nodeAt (.dir [(".workshops", .dir []), ("app", .dir [])]) ([] ++ [".workshops", "w"]) =
        nodeAt (.dir []) ([] ++ [".workshops", "w"])) := by
  refine ⟨by rfl, by rfl, by rfl, ?_⟩
  exact claim_C4_init_missing_workshop none (some ["app"]) (.dir [])
    (.dir [(".workshops", .dir [])]) (.dir [(".workshops", .dir []), ("app", .dir [])])
    [] ["app"] "w" (by rfl) (by rfl) (by rfl)

/-- C9: init_data_dir creates the local .workshops directory and, via
application::data_dir, the application data store directory before it
checks whether the named workshop exists there; so when it fails with the
workshop-data-directory-not-found condition, both directories exist in the
returned filesystem state — the filesystem is not left unchanged on this
error. -/
theorem claim_C9_init_creates_dirs_before_check :
    ∀ (env : Option String) (plat : Option (List String)) (fs fs' : Node)
      (cwd : List String) (w : String),
      init_data_dir env plat fs cwd w = (fs', .error .workshopDataDirNotFound) →
      isDirAt fs' (cwd ++ [".workshops"]) = true ∧
      ∃ dpath, resolvedStorePath env plat = some dpath ∧ isDirAt fs' dpath = true := by
  intro env plat fs fs' cwd w h
  simp only [init_data_dir] at h
  cases hins : insertDir fs (cwd ++ [".workshops"]) with
  | none =>
    simp only [hins] at h
    simp [Prod.ext_iff] at h
  | some fs1 =>
    simp only [hins] at h
    cases had : application_data_dir env plat fs1 with
    | mk fs2 r =>
      cases r with
      | error e =>
        simp only [had] at h
        simp [Prod.ext_iff] at h
        rcases application_data_dir_error had with he | he <;> rw [he] at h <;> cases h.2
      | ok dpath =>
        simp only [had] at h
        obtain ⟨hr, hi⟩ := application_data_dir_ok had
        cases hn : nodeAt fs2 (dpath ++ [w]) with
        | some n =>
          cases n with
          | dir ds =>
            simp only [hn] at h
            cases hcp : copy_tree (.dir ds) fs2 ((cwd ++ [".workshops"]) ++ [w]) with
            | mk fs3 u =>
              cases u with
              | ok v =>
                cases v
                simp only [hcp] at h
                simp [Prod.ext_iff] at h
              | error e2 =>
                simp only [hcp] at h
                simp [Prod.ext_iff] at h
                have := copy_tree_error ⟨ds, rfl⟩ hcp
                rw [h.2] at this
                cases this
          | file s =>
            simp only [hn] at h
            simp only [Prod.mk.injEq] at h
            refine h.1 ▸ ⟨?_, dpath, hr, ?_⟩
            · exact insertDir_preserves_isDir hi (insertDir_isDir hins)
            · exact insertDir_isDir hi
        | none =>
          simp only [hn] at h
          simp only [Prod.mk.injEq] at h
          refine h.1 ▸ ⟨?_, dpath, hr, ?_⟩
          · exact insertDir_preserves_isDir hi (insertDir_isDir hins)
          · exact insertDir_isDir hi

theorem claim_C9_init_creates_dirs_before_check_witness :
    init_data_dir none (some ["app"]) (.dir []) [] "w" =
      (.dir [(".workshops", .dir []), ("app", .dir [])], .error .workshopDataDirNotFound) ∧
    isDirAt (.dir [(".workshops", .dir []), ("app", .dir [])]) ([] ++ [".workshops"]) = true ∧
    (∃ dpath, resolvedStorePath none (some ["app"]) = some dpath ∧
      isDirAt (.dir [(".workshops", .dir []), ("app", .dir [])]) dpath = true) := by
  refine ⟨by rfl, ?_⟩
  have h := claim_C9_init_creates_dirs_before_check none (some ["app"]) (.dir [])
    (.dir [(".workshops", .dir []), ("app", .dir [])]) [] "w" (by rfl)
  exact h

/-- C5 counterexample: with WORKSHOPS_DIR set to the empty string (set but
not non-empty) and a platform-standard directory available, the claim
predicts the platform-standard path; the code instead uses the override's
value (the empty path) — std::env::var succeeds for any set variable and
create_dir_all accepts the empty path. -/
theorem claim_C5_env_override_counterexample :
    (application_data_dir (some "") (some ["plat"]) (.dir [])).2 =
      .ok ([] : List String) ∧
    (application_data_dir (some "") (some ["plat"]) (.dir [])).2 ≠ .ok ["plat"] := by
  constructor
  · rfl
  · intro h
    exact absurd (Except.ok.inj h) (by decide)

/-- C5 amended: if WORKSHOPS_DIR is set — to any value, the empty string
included — its value is returned as the store path and platform-standard
resolution is bypassed entirely; only when it is unset is the
platform-standard directory used (failing when the platform offers none);
in either case the directory is created with all missing ancestors, so a
successful resolution leaves the directory (and every ancestor) existing —
resolution never fails due to absence, only on a filesystem conflict or an
unresolvable platform. -/
theorem claim_C5_store_resolution_amended :
    (∀ (s : String) (plat plat' : Option (List String)) (fs : Node),
      application_data_dir (some s) plat fs = application_data_dir (some s) plat' fs) ∧
    (∀ (s : String) (plat : Option (List String)) (fs fs' : Node),
      insertDir fs (pathFromString s) = some fs' →
      application_data_dir (some s) plat fs = (fs', .ok (pathFromString s))) ∧
    (∀ (d : List String) (fs fs' : Node),
      insertDir fs d = some fs' →
      application_data_dir none (some d) fs = (fs', .ok d)) ∧
    (∀ fs : Node, application_data_dir none none fs =
      (fs, .error .applicationDirsNotFound)) ∧
    (∀ (env : Option String) (plat : Option (List String)) (fs fs' : Node)
      (d : List String),
      application_data_dir env plat fs = (fs', .ok d) →
      ∀ q, q <+: d → isDirAt fs' q = true) := by
  refine ⟨?_, ?_, ?_, ?_, ?_⟩
  · intro s plat plat' fs
    simp only [application_data_dir, resolvedStorePath]
  · intro s plat fs fs' hi
    simp only [application_data_dir, resolvedStorePath, hi]
  · intro d fs fs' hi
    simp only [application_data_dir, resolvedStorePath, hi]
  · intro fs
    simp only [application_data_dir, resolvedStorePath]
  · intro env plat fs fs' d h q hq
    obtain ⟨_, hi⟩ := application_data_dir_ok h
    exact insertDir_prefix_isDir hi hq

theorem claim_C5_store_resolution_amended_witness :
    insertDir (.dir []) (pathFromString "store") = some (.dir [("store", .dir [])]) ∧
    application_data_dir (some "store") none (.dir []) =
      (.dir [("store", .dir [])], .ok (pathFromString "store")) := by
  refine ⟨by rfl, ?_⟩
  exact claim_C5_store_resolution_amended.2.1 "store" none (.dir [])
    (.dir [("store", .dir [])]) (by rfl)

/-- C10 counterexample: a call on which the config is not saved. With a
found .workshops directory whose status.yaml entry is itself a directory,
File::create fails and the error propagates before Config::save runs — so
the config is not saved on every call, refuting the claim's unconditional
part. -/
theorem claim_C10_save_counterexample :
    status_save (.dir [(".workshops", .dir [("status.yaml", .dir [])])]) [] "y" =
      (.dir [(".workshops", .dir [("status.yaml", .dir [])])], false, .error .ioErr) ∧
    (status_save (.dir [(".workshops", .dir [("status.yaml", .dir [])])]) [] "y").2.1
      ≠ true := by
  have h : status_save (.dir [(".workshops", .dir [("status.yaml", .dir [])])]) [] "y" =
      (.dir [(".workshops", .dir [("status.yaml", .dir [])])], false, .error .ioErr) := by
    simp [status_save, workshops_data_dir, isDirAt, nodeAt, insertDir, writeFileAt]
  refine ⟨h, ?_⟩
  rw [h]
  decide

/-- C10 amended: Status::save returns success without writing any
status.yaml when the upward search finds no .workshops directory — the
status fields are silently not persisted in that case while the config is
still saved; but on calls where preparing or writing status.yaml fails, the
error propagates and the config is not saved, so the config save happens on
every call except those failing while persisting the status. -/
theorem claim_C10_save_no_store_amended :
    (∀ (fs : Node) (cwd : List String) (yaml : String),
      workshops_data_dir fs cwd = none →
      status_save fs cwd yaml = (fs, true, .ok ())) ∧
    (∀ (fs fs' : Node) (cwd : List String) (yaml : String) (cfg : Bool) (e : Err),
      status_save fs cwd yaml = (fs', cfg, .error e) → cfg = false) := by
  constructor
  · intro fs cwd yaml h
    simp only [status_save, h]
  · intro fs fs' cwd yaml cfg e h
    simp only [status_save] at h
    cases hd : workshops_data_dir fs cwd with
    | none =>
      simp only [hd] at h
      simp [Prod.ext_iff] at h
    | some d =>
      simp only [hd] at h
      cases hi : insertDir fs d with
      | none =>
        simp only [hi] at h
        simp [Prod.ext_iff] at h
        exact h.2.1
      | some fs1 =>
        simp only [hi] at h
        cases hw : writeFileAt fs1 (d ++ ["status.yaml"]) yaml with
        | none =>
          simp only [hw] at h
          simp [Prod.ext_iff] at h
          exact h.2.1
        | some fs2 =>
          simp only [hw] at h
          simp [Prod.ext_iff] at h

theorem claim_C10_save_no_store_amended_witness :
    workshops_data_dir (.dir []) [] = none ∧
    status_save (.dir []) [] "y" = (.dir [], true, .ok ()) := by
  have h : workshops_data_dir (.dir []) [] = none := by
    simp [workshops_data_dir, isDirAt, nodeAt]
  exact ⟨h, claim_C10_save_no_store_amended.1 (.dir []) [] "y" h⟩

theorem takeWhile_append_all {α : Type} {p : α → Bool} :
    ∀ {l₁ l₂ : List α}, (∀ y ∈ l₁, p y = true) →
      (l₁ ++ l₂).takeWhile p = l₁ ++ l₂.takeWhile p := by
  intro l₁
  induction l₁ with
  | nil => intro l₂ h; simp
  | cons a l ih =>
    intro l₂ h
    have ha : p a = true := h a (List.mem_cons_self a l)
    simp only [List.cons_append, List.takeWhile_cons_of_pos ha]
    rw [ih (fun y hy => h y (List.mem_cons_of_mem a hy))]

theorem takeWhile_append_stop {α : Type} {p : α → Bool} :
    ∀ {l₁ l₂ : List α}, (∃ y ∈ l₁, p y = false) →
      (l₁ ++ l₂).takeWhile p = l₁.takeWhile p := by
  intro l₁
  induction l₁ with
  | nil => rintro l₂ ⟨y, hy, _⟩; cases hy
  | cons a l ih =>
    rintro l₂ ⟨y, hy, hpy⟩
    cases hpa : p a with
    | false =>
      rw [List.cons_append, List.takeWhile_cons_of_neg (by simp [hpa]),
        List.takeWhile_cons_of_neg (by simp [hpa])]
    | true =>
      have hyl : y ∈ l := by
        rcases List.mem_cons.mp hy with rfl | hm
        · rw [hpa] at hpy; cases hpy
        · exact hm
      simp only [List.cons_append, List.takeWhile_cons_of_pos hpa]
      rw [ih ⟨y, hyl, hpy⟩]

theorem rsplitOnce_after (c : Char) :
    ∀ l : List Char, (rsplitOnce c l).map (fun pr => pr.2) =
      if l.contains c then some ((l.reverse.takeWhile (fun d => d != c)).reverse)
      else none := by
  intro l
  induction l with
  | nil => rfl
  | cons x xs ih =>
    rw [rsplitOnce]
    cases hr : rsplitOnce c xs with
    | some pr =>
      obtain ⟨b, a⟩ := pr
      rw [hr] at ih
      by_cases hc : xs.contains c = true
      · rw [if_pos hc] at ih
        have ha : a = (xs.reverse.takeWhile (fun d => d != c)).reverse := by
          simpa using ih
        have hcc : (x :: xs).contains c = true := by
          simp only [List.contains_cons, hc, Bool.or_true]
        rw [if_pos hcc]
        have hcm : c ∈ xs := by
          rw [← List.elem_iff]
          exact hc
        have hstop : List.takeWhile (fun d => d != c) (xs.reverse ++ [x]) =
            List.takeWhile (fun d => d != c) xs.reverse :=
          takeWhile_append_stop ⟨c, List.mem_reverse.mpr hcm, by simp⟩
        rw [List.reverse_cons, hstop, ← ha]
        rfl
      · rw [if_neg hc] at ih
        simp at ih
    | none =>
      rw [hr] at ih
      by_cases hc : xs.contains c = true
      · rw [if_pos hc] at ih
        simp at ih
      · rw [if_neg hc] at ih
        have hnotin : c ∉ xs := fun hm => hc (List.elem_iff.mpr hm)
        by_cases hx : (x == c) = true
        · have hcx : (c == x) = true := by
            rw [beq_iff_eq]
            exact (beq_iff_eq.mp hx).symm
          have hcc : (x :: xs).contains c = true := by
            simp only [List.contains_cons, hcx, Bool.true_or]
          rw [if_pos hcc]
          have hall : ∀ y ∈ xs.reverse, (y != c) = true := by
            intro y hy
            simp only [bne_iff_ne, ne_eq]
            intro hyc
            exact hnotin (hyc ▸ List.mem_reverse.mp hy)
          have hxne : (x != c) = false := by
            simp only [bne, hx, Bool.not_true]
          have hsingle : List.takeWhile (fun d => d != c) [x] = [] :=
            List.takeWhile_cons_of_neg (by simp [hxne])
          rw [if_pos hx, List.reverse_cons, takeWhile_append_all hall, hsingle]
          simp
        · have hxf : (x == c) = false := Bool.of_not_eq_true hx
          have hccb : (x :: xs).contains c = false := by
            simp only [List.contains_cons, Bool.or_eq_false_iff]
            exact ⟨beq_eq_false_iff_ne.mpr (fun h => hx (beq_iff_eq.mpr h.symm)),
              Bool.of_not_eq_true hc⟩
          rw [if_neg (show ¬((x :: xs).contains c = true) from by rw [hccb]; simp)]
          simp [hxf]

theorem parse_after_last_eq (c : Char) (s : String) :
    (match rsplitOnce c s.toList with
      | some (_, a) => Version.parseChars (trimChars a)
      | none => none) = specAfterLast c s := by
  have h := rsplitOnce_after c s.toList
  simp only [specAfterLast]
  cases hr : rsplitOnce c s.toList with
  | none =>
    rw [hr] at h
    by_cases hc : s.toList.contains c = true
    · rw [if_pos hc] at h
      simp at h
    · rw [if_neg hc]
  | some pr =>
    obtain ⟨b, a⟩ := pr
    rw [hr] at h
    by_cases hc : s.toList.contains c = true
    · rw [if_pos hc] at h
      have ha : a = (s.toList.reverse.takeWhile (fun d => d != c)).reverse := by
        simpa using h
      rw [if_pos hc, ha]
    · rw [if_neg hc] at h
      simp at h

/-- C6 counterexample: the interpreter (and standalone compose) parser is
not the last-whitespace-delimited-token parser the claim describes: on the
tab-separated output it returns no value because the output contains no
space character, while the last whitespace-delimited token parses to
3.2.1. -/
theorem claim_C6_parser_counterexample :
    parse_version_space "Python\t3.2.1" = none ∧
    specLastWsToken "Python\t3.2.1" = some ⟨3, 2, 1, [], []⟩ ∧
    parse_version_space "Python\t3.2.1" ≠ specLastWsToken "Python\t3.2.1" := by
  have h1 : parse_version_space "Python\t3.2.1" = none := rfl
  have h2 : specLastWsToken "Python\t3.2.1" = some ⟨3, 2, 1, [], []⟩ := rfl
  refine ⟨h1, h2, ?_⟩
  rw [h1, h2]
  intro h
  cases h

/-- C6 amended: the parsers are tool-specific, splitting at the last
literal delimiter character — the interpreter and standalone compose
parsers take the text after the last space character, the compose plugin
parser the text after the last literal v — trimming it and parsing it as a
semantic version (so the plugin output "Docker Compose version v2.36.2"
parses to 2.36.2); when the delimiter does not occur, or the remaining text
is not a semantic version, the parser returns no value. -/
theorem claim_C6_parsers_amended :
    (∀ s : String, parse_version_space s = specAfterLast ' ' s) ∧
    (∀ s : String, parse_version_v s = specAfterLast 'v' s) ∧
    parse_version_v "Docker Compose version v2.36.2" = some ⟨2, 36, 2, [], []⟩ ∧
    parse_version_space "docker-compose version 1.29.2" = some ⟨1, 29, 2, [], []⟩ ∧
    (∀ s : String, s.toList.contains ' ' = false → parse_version_space s = none) ∧
    (∀ s : String, s.toList.contains 'v' = false → parse_version_v s = none) := by
  have hsp : ∀ s : String, parse_version_space s = specAfterLast ' ' s :=
    fun s => parse_after_last_eq ' ' s
  have hv : ∀ s : String, parse_version_v s = specAfterLast 'v' s :=
    fun s => parse_after_last_eq 'v' s
  refine ⟨hsp, hv, by rfl, by rfl, ?_, ?_⟩
  · intro s h
    rw [hsp s]
    simp only [specAfterLast, h]
    rfl
  · intro s h
    rw [hv s]
    simp only [specAfterLast, h]
    rfl

theorem claim_C6_parsers_amended_witness :
    ("3.2.1" : String).toList.contains ' ' = false ∧
    parse_version_space "3.2.1" = none := by
  refine ⟨by rfl, ?_⟩
  exact claim_C6_parsers_amended.2.2.2.2.1 "3.2.1" (by rfl)

theorem hmGet_insert_self {W : Type} (m : List (String × W)) (k : String) (v : W) :
    hmGet (hmInsert m k v) k = some v := by
  unfold hmInsert hmGet
  by_cases hany : m.any (fun e => e.1 == k) = true
  · rw [if_pos hany]
    obtain ⟨e, hmem, hbeq⟩ := List.any_eq_true.mp hany
    have hsome : (m.find? (fun e => e.1 == k)).isSome = true :=
      List.find?_isSome.mpr ⟨e, hmem, hbeq⟩
    obtain ⟨a, ha⟩ := Option.isSome_iff_exists.mp hsome
    rw [find?_replace_self v ha]
    rfl
  · rw [if_neg hany]
    have hnone : m.find? (fun e => e.1 == k) = none := by
      rw [List.find?_eq_none]
      intro x hx
      intro hbx
      exact hany (List.any_eq_true.mpr ⟨x, hx, hbx⟩)
    rw [List.find?_append, hnone, Option.none_or]
    simp [List.find?_cons]

theorem hmGet_insert_ne {W : Type} (m : List (String × W)) {k k' : String} (v : W)
    (h : k' ≠ k) : hmGet (hmInsert m k v) k' = hmGet m k' := by
  unfold hmInsert hmGet
  by_cases hany : m.any (fun e => e.1 == k) = true
  · rw [if_pos hany, find?_replace_ne v h]
  · rw [if_neg hany, List.find?_append]
    have hsingle : List.find? (fun e => e.1 == k') [(k, v)] = none := by
      simp [List.find?_cons, beq_eq_false_iff_ne.mpr (fun hh : k = k' => h hh.symm)]
    rw [hsingle]
    cases m.find? (fun e => e.1 == k') <;> rfl

theorem hmInsert_keys_nodup {W : Type} {m : List (String × W)}
    (h : (m.map (fun e => e.1)).Nodup) (k : String) (v : W) :
    ((hmInsert m k v).map (fun e => e.1)).Nodup := by
  unfold hmInsert
  by_cases hany : m.any (fun e => e.1 == k) = true
  · rw [if_pos hany]
    have : (m.map (fun e' => if e'.1 == k then (k, v) else e')).map (fun e => e.1) =
        m.map (fun e => e.1) := by
      rw [List.map_map]
      apply List.map_congr_left
      intro e hmem
      by_cases he : (e.1 == k) = true
      · simp [Function.comp, he, (beq_iff_eq.mp he).symm]
      · simp [Function.comp, Bool.of_not_eq_true he]
    rw [this]
    exact h
  · rw [if_neg hany]
    have hnotin : k ∉ m.map (fun e => e.1) := by
      intro hk
      obtain ⟨e, hmem, hke⟩ := List.mem_map.mp hk
      exact hany (List.any_eq_true.mpr ⟨e, hmem, beq_iff_eq.mpr hke⟩)
    rw [List.map_append]
    simp only [List.map_cons, List.map_nil]
    rw [List.nodup_append]
    refine ⟨h, List.nodup_singleton k, ?_⟩
    intro a ha hb
    rw [List.mem_singleton] at hb
    subst hb
    exact hnotin ha

theorem hmExtend_get {W : Type} :
    ∀ (l m : List (String × W)) (k : String), ((l.map (fun e => e.1)).Nodup) →
      hmGet (hmExtend m l) k =
        match hmGet l k with
        | some v => some v
        | none => hmGet m k := by
  intro l
  induction l with
  | nil => intro m k _; rfl
  | cons e t ih =>
    intro m k hnd
    obtain ⟨k0, v0⟩ := e
    simp only [List.map_cons, List.nodup_cons] at hnd
    have hextend : hmExtend m ((k0, v0) :: t) = hmExtend (hmInsert m k0 v0) t := rfl
    rw [hextend]
    by_cases hk : k = k0
    · subst hk
      have hget : hmGet ((k, v0) :: t) k = some v0 := by
        unfold hmGet
        simp [List.find?_cons]
      rw [hget, ih (hmInsert m k v0) k hnd.2]
      have htk : hmGet t k = none := by
        unfold hmGet
        rw [List.find?_eq_none.mpr]
        · rfl
        · intro x hx hbx
          exact hnd.1 (List.mem_map.mpr ⟨x, hx, (beq_iff_eq.mp hbx)⟩)
      rw [htk]
      exact hmGet_insert_self m k v0
    · have hget : hmGet ((k0, v0) :: t) k = hmGet t k := by
        unfold hmGet
        rw [List.find?_cons_of_neg _ (by simp [beq_eq_false_iff_ne.mpr (fun hh : k0 = k => hk hh.symm)])]
      rw [hget, ih (hmInsert m k0 v0) k hnd.2]
      cases hmGet t k with
      | some v => rfl
      | none => exact hmGet_insert_ne m v0 hk

theorem loadEntries_nodup {W : Type} {loader : String → List String → Except Err W}
    {dir : List String} :
    ∀ {es : List (String × Node)} {acc m : List (String × W)},
      ((acc.map (fun e => e.1)).Nodup) →
      loadEntries loader dir es acc = .ok m →
      (m.map (fun e => e.1)).Nodup := by
  intro es
  induction es with
  | nil =>
    intro acc m hnd h
    simp only [loadEntries] at h
    cases h
    exact hnd
  | cons e rest ih =>
    intro acc m hnd h
    obtain ⟨name, node⟩ := e
    cases node with
    | dir es' =>
      simp only [loadEntries] at h
      cases hl : loader name dir with
      | ok w =>
        rw [hl] at h
        exact ih (hmInsert_keys_nodup hnd name w) h
      | error er => rw [hl] at h; cases h
    | file s =>
      simp only [loadEntries] at h
      exact ih hnd h

theorem load_workshop_data_nodup {W : Type}
    {loader : String → List String → Except Err W} {fs : Node}
    {dir : List String} {m : List (String × W)}
    (h : load_workshop_data loader fs dir = .ok m) :
    (m.map (fun e => e.1)).Nodup := by
  unfold load_workshop_data at h
  cases hn : nodeAt fs dir with
  | none => rw [hn] at h; cases h
  | some n =>
    cases n with
    | dir es =>
      rw [hn] at h
      exact loadEntries_nodup (by simp) h
    | file s => rw [hn] at h; cases h

/-- C7: when the application data store and the local workspace store both
define a workshop of the same identifier, the map produced by all_workshops
holds the local store's entry for that identifier (local entries override);
identifiers present in only one store keep that store's entry. -/
theorem claim_C7_local_overrides :
    ∀ {W : Type} (loader : String → List String → Except Err W)
      (env : Option String) (plat : Option (List String)) (fs fs1 : Node)
      (cwd dpath lpath : List String) (m1 m2 : List (String × W)),
      application_data_dir env plat fs = (fs1, .ok dpath) →
      load_workshop_data loader fs1 dpath = .ok m1 →
      workshops_data_dir fs1 cwd = some lpath →
      load_workshop_data loader fs1 lpath = .ok m2 →
      all_workshops loader env plat fs cwd = (fs1, .ok (hmExtend m1 m2)) ∧
      (∀ k v, hmGet m2 k = some v → hmGet (hmExtend m1 m2) k = some v) ∧
      (∀ k, hmGet m2 k = none → hmGet (hmExtend m1 m2) k = hmGet m1 k) := by
  intro W loader env plat fs fs1 cwd dpath lpath m1 m2 h1 h2 h3 h4
  have hnd := load_workshop_data_nodup h4
  refine ⟨?_, ?_, ?_⟩
  · simp only [all_workshops, h1, h2, h3, h4]
  · intro k v hk
    rw [hmExtend_get m2 m1 k hnd, hk]
  · intro k hk
    rw [hmExtend_get m2 m1 k hnd, hk]

/-- A concrete loader for exhibiting the merge: a workshop's data is the
total length of its store path, so the two stores produce distinct values
for a shared identifier. -/
def exLoader : String → List String → Except Err Nat :=
  fun _ d => .ok (String.join d).length

/-- A concrete filesystem with an application store (app) and a local
store (.workshops) sharing the identifier shared. -/
def exStores : Node :=
  .dir [("app", .dir [("shared", .dir []), ("onlyapp", .dir [])]),
        (".workshops", .dir [("shared", .dir []), ("onlylocal", .dir [])])]

theorem claim_C7_local_overrides_witness :
    application_data_dir none (some ["app"]) exStores = (exStores, .ok ["app"]) ∧
    load_workshop_data exLoader exStores ["app"] =
      .ok [("shared", 3), ("onlyapp", 3)] ∧
    workshops_data_dir exStores [] = some [".workshops"] ∧
    load_workshop_data exLoader exStores [".workshops"] =
      .ok [("shared", 10), ("onlylocal", 10)] ∧
    all_workshops exLoader none (some ["app"]) exStores [] =
      (exStores, .ok (hmExtend [("shared", 3), ("onlyapp", 3)]
        [("shared", 10), ("onlylocal", 10)])) ∧
    hmGet (hmExtend [("shared", 3), ("onlyapp", 3)]
      [("shared", 10), ("onlylocal", 10)]) "shared" = some 10 ∧
    hmGet (hmExtend [("shared", 3), ("onlyapp", 3)]
      [("shared", 10), ("onlylocal", 10)]) "onlyapp" = some 3 := by
  have h3 : workshops_data_dir exStores [] = some [".workshops"] := by
    simp [workshops_data_dir, exStores, isDirAt, nodeAt]
  have h := claim_C7_local_overrides exLoader none (some ["app"]) exStores exStores
    [] ["app"] [".workshops"] [("shared", 3), ("onlyapp", 3)]
    [("shared", 10), ("onlylocal", 10)] (by rfl) (by rfl) h3 (by rfl)
  exact ⟨by rfl, by rfl, h3, by rfl, h.1,
    h.2.1 "shared" 10 (by rfl), (h.2.2 "onlyapp" (by rfl)).trans (by rfl)⟩

theorem permFlatten {α : Type} {l₁ l₂ : List (List α)} (h : l₁.Perm l₂) :
    l₁.flatten.Perm l₂.flatten := by
  induction h with
  | nil => exact List.Perm.refl _
  | cons x _ ih =>
    simp only [List.flatten_cons]
    exact ih.append_left x
  | swap x y l =>
    simp only [List.flatten_cons]
    rw [← List.append_assoc, ← List.append_assoc]
    exact List.perm_append_comm.append_right _
  | trans _ _ ih1 ih2 => exact ih1.trans ih2

theorem rustDedup_sublist {α : Type} [BEq α] : ∀ l : List α, (rustDedup l).Sublist l := by
  intro l
  induction l using rustDedup.induct with
  | case1 => exact List.Sublist.refl _
  | case2 a => exact List.Sublist.refl _
  | case3 a b rest hab ih =>
    rw [rustDedup, if_pos hab]
    exact ih.cons a
  | case4 a b rest hab ih =>
    rw [rustDedup, if_neg hab]
    exact ih.cons₂ a

theorem rustDedup_cons_eq {α : Type} [BEq α] [LawfulBEq α] :
    ∀ (l : List α) (a : α), ∃ t, rustDedup (a :: l) = a :: t := by
  intro l
  induction l with
  | nil => intro a; exact ⟨[], rfl⟩
  | cons b r ih =>
    intro a
    by_cases hab : (a == b) = true
    · have he : a = b := eq_of_beq hab
      rw [rustDedup, if_pos hab]
      obtain ⟨t, ht⟩ := ih b
      exact ⟨t, by rw [ht, he]⟩
    · rw [rustDedup, if_neg hab]
      exact ⟨rustDedup (b :: r), rfl⟩

theorem rustDedup_chain' {α : Type} [BEq α] [LawfulBEq α] :
    ∀ l : List α, List.Chain' (fun x y => ¬x = y) (rustDedup l) := by
  intro l
  induction l using rustDedup.induct with
  | case1 => simp [rustDedup]
  | case2 a => simp [rustDedup]
  | case3 a b rest hab ih =>
    rw [rustDedup, if_pos hab]
    exact ih
  | case4 a b rest hab ih =>
    rw [rustDedup, if_neg hab]
    obtain ⟨t, ht⟩ := rustDedup_cons_eq rest b
    rw [ht]
    rw [ht] at ih
    exact List.chain'_cons.mpr ⟨fun he => hab (beq_iff_eq.mpr he), ih⟩

theorem rustDedup_mem {α : Type} [BEq α] [LawfulBEq α] :
    ∀ (l : List α) (x : α), x ∈ rustDedup l ↔ x ∈ l := by
  intro l
  induction l using rustDedup.induct with
  | case1 => intro x; simp [rustDedup]
  | case2 a => intro x; simp [rustDedup]
  | case3 a b rest hab ih =>
    intro x
    rw [rustDedup, if_pos hab]
    have he : a = b := eq_of_beq hab
    rw [ih x]
    subst he
    simp [List.mem_cons]
  | case4 a b rest hab ih =>
    intro x
    rw [rustDedup, if_neg hab]
    simp [List.mem_cons, ih x]

/-- C8: all_spoken_languages returns the sorted, adjacent-duplicate-free
list of all spoken languages declared by any workshop, and the output is
the same for any iteration order of the merged workshop map; in particular
workshops declaring [en, fr] and [en, de] yield exactly [de, en, fr]. -/
theorem claim_C8_spoken_languages :
    (∀ {W : Type} (getLangs : W → List SpokenCode) (ws1 ws2 : List W),
      ws1.Perm ws2 →
      all_spoken_languages getLangs ws1 = all_spoken_languages getLangs ws2) ∧
    (∀ {W : Type} (getLangs : W → List SpokenCode) (ws : List W),
      List.Sorted spokenR (all_spoken_languages getLangs ws)) ∧
    (∀ {W : Type} (getLangs : W → List SpokenCode) (ws : List W),
      List.Chain' (fun x y => ¬x = y) (all_spoken_languages getLangs ws)) ∧
    (∀ {W : Type} (getLangs : W → List SpokenCode) (ws : List W) (x : SpokenCode),
      x ∈ all_spoken_languages getLangs ws ↔ ∃ w ∈ ws, x ∈ getLangs w) ∧
    all_spoken_languages (fun l => l) [[SpokenCode.en, .fr], [.en, .de]] =
      [SpokenCode.de, .en, .fr] := by
  refine ⟨?_, ?_, ?_, ?_, by rfl⟩
  · intro W getLangs ws1 ws2 h
    have hp : ((ws1.map getLangs).flatten).Perm ((ws2.map getLangs).flatten) :=
      permFlatten (h.map getLangs)
    have hsorted1 := List.sorted_insertionSort spokenR ((ws1.map getLangs).flatten)
    have hsorted2 := List.sorted_insertionSort spokenR ((ws2.map getLangs).flatten)
    have hperm : (List.insertionSort spokenR ((ws1.map getLangs).flatten)).Perm
        (List.insertionSort spokenR ((ws2.map getLangs).flatten)) :=
      ((List.perm_insertionSort spokenR _).trans hp).trans
        (List.perm_insertionSort spokenR _).symm
    have he := List.eq_of_perm_of_sorted hperm hsorted1 hsorted2
    rw [all_spoken_languages, all_spoken_languages, he]
  · intro W getLangs ws
    exact (List.sorted_insertionSort spokenR _).sublist (rustDedup_sublist _)
  · intro W getLangs ws
    exact rustDedup_chain' _
  · intro W getLangs ws x
    rw [all_spoken_languages, rustDedup_mem, List.mem_insertionSort,
      List.mem_flatten]
    constructor
    · rintro ⟨s, hs, hx⟩
      obtain ⟨w, hw, rfl⟩ := List.mem_map.mp hs
      exact ⟨w, hw, hx⟩
    · rintro ⟨w, hw, hx⟩
      exact ⟨getLangs w, List.mem_map.mpr ⟨w, hw, rfl⟩, hx⟩

theorem claim_C8_spoken_languages_witness :
    ([[SpokenCode.en, .fr], [.en, .de]] : List (List SpokenCode)).Perm
      [[SpokenCode.en, .de], [.en, .fr]] ∧
    all_spoken_languages (fun l => l) [[SpokenCode.en, .fr], [.en, .de]] =
      all_spoken_languages (fun l => l) [[SpokenCode.en, .de], [.en, .fr]] ∧
    all_spoken_languages (fun l => l) [[SpokenCode.en, .fr], [.en, .de]] =
      [SpokenCode.de, .en, .fr] := by
  have hperm : ([[SpokenCode.en, .fr], [.en, .de]] : List (List SpokenCode)).Perm
      [[SpokenCode.en, .de], [.en, .fr]] :=
    List.Perm.swap [SpokenCode.en, .de] [SpokenCode.en, .fr] []
  exact ⟨hperm,
    claim_C8_spoken_languages.1 (fun l => l) [[SpokenCode.en, .fr], [.en, .de]]
      [[SpokenCode.en, .de], [.en, .fr]] hperm, by rfl⟩
